import Mathlib

/-!
Shallow embedding of gitdb2 (src/gitdb2/git_handling.py) and verification of
the specification claims about its tree algebra, change-set simplifier,
applier and snapshot orchestrator.

Modelling conventions:
* Content identities (pygit2 `Oid`) are modelled injectively: a blob id is the
  blob content itself (SHA-1 hashing of the UTF-8 bytes is assumed injective),
  and a tree id is the canonical (name-sorted) entry list of the tree.  Two
  objects have the same identity exactly when they have the same content,
  which is the defining property of the content-addressed store.
* `empty_tree_id` (the constant 4b825dc6... in the source) is the identity of
  the tree with no entries.
* A pygit2 `TreeBuilder` is an unordered name-keyed map whose `write` sorts
  the entries canonically.  Every tree the store produces is therefore
  canonically sorted, and on such entry lists an order-preserving sorted
  upsert (`tbInsert`) is an equivalent model of insert-then-write.
* Python exceptions are modelled with `Except PyErr`.  The recursive path
  functions of the source re-split a re-joined path string at every level, so
  their recursion is not structurally decreasing on the string; they are
  given fuel that suffices for every input on which the Python terminates
  (each loop iteration strictly shrinks the processed head, except for heads
  made only of slashes, on which the Python itself diverges).
-/

inductive FileMode where
  | blob
  | tree
  deriving DecidableEq, Repr

/-- Content identity: either a blob id (its content) or a tree id (its
canonical entry list).  An entry is (name, id, filemode). -/
inductive Oid where
  | blobId : String → Oid
  | treeId : List (String × Oid × FileMode) → Oid

abbrev Entry := String × Oid × FileMode

def Oid.decEq : (a b : Oid) → Decidable (a = b)
  | .blobId a, .blobId b =>
      if h : a = b then .isTrue (by rw [h]) else .isFalse (by intro he; cases he; exact h rfl)
  | .treeId es, .treeId fs =>
      match goL es fs with
      | .isTrue h => .isTrue (by rw [h])
      | .isFalse h => .isFalse (by intro he; cases he; exact h rfl)
  | .blobId _, .treeId _ => .isFalse (by intro h; cases h)
  | .treeId _, .blobId _ => .isFalse (by intro h; cases h)
where
  goL : (es fs : List Entry) → Decidable (es = fs)
  | [], [] => .isTrue rfl
  | [], _ :: _ => .isFalse (by intro h; cases h)
  | _ :: _, [] => .isFalse (by intro h; cases h)
  | (n, o, m) :: es, (n2, o2, m2) :: fs =>
      have d1 : Decidable (o = o2) := Oid.decEq o o2
      have d2 : Decidable (es = fs) := goL es fs
      decidable_of_iff (n = n2 ∧ o = o2 ∧ m = m2 ∧ es = fs)
        (by constructor
            · rintro ⟨h1, h2, h3, h4⟩; rw [h1, h2, h3, h4]
            · intro h
              injection h with h1 h2
              injection h1 with ha hb
              injection hb with hb hc
              exact ⟨ha, hb, hc, h2⟩)

instance : DecidableEq Oid := Oid.decEq

/-- The identity of the canonical empty tree (constant `empty_tree_id` of the
source, hex 4b825dc642cb6eb9a060e54bf8d69288fbee4904). -/
def empty_tree_id : Oid := .treeId []

/-- An object fetched from the store by id: `repo[oid]`. -/
inductive GitObj where
  | blob (data : String)
  | tree (entries : List Entry)

def lookupObj : Oid → GitObj
  | .blobId s => .blob s
  | .treeId es => .tree es

def objId : GitObj → Oid
  | .blob s => .blobId s
  | .tree es => .treeId es

/-- Python exceptions raised by the embedded code.  The two move failures are
the anonymous `Exception` values with messages Trying to move deleted file
and Trying to move non existant file. -/
inductive PyErr where
  | typeError
  | attrError
  | keyError
  | notFound
  | assertError
  | moveOfDeletedPath
  | moveOfMissingPath
  | fuelExhausted
  deriving DecidableEq, Repr

instance {e a : Type} [DecidableEq e] [DecidableEq a] : DecidableEq (Except e a) := fun x y =>
  match x, y with
  | .ok v, .ok w =>
    if h : v = w then .isTrue (by rw [h]) else .isFalse (by intro hc; cases hc; exact h rfl)
  | .error v, .error w =>
    if h : v = w then .isTrue (by rw [h]) else .isFalse (by intro hc; cases hc; exact h rfl)
  | .ok _, .error _ => .isFalse (by intro hc; cases hc)
  | .error _, .ok _ => .isFalse (by intro hc; cases hc)

def entName (e : Entry) : String := e.1

def entOid (e : Entry) : Oid := e.2.1

def entMode (e : Entry) : FileMode := e.2.2

/-- The strict name order of the canonical entry sort (the byte order of the
UTF-8 encodings, which coincides with the codepoint order). -/
def nameLt (a b : String) : Prop := a.data < b.data

instance (a b : String) : Decidable (nameLt a b) := by unfold nameLt; infer_instance

theorem nameLt_irrefl (a : String) : ¬ nameLt a a := fun h => lt_irrefl _ h

theorem nameLt_asymm {a b : String} (h : nameLt a b) : ¬ nameLt b a :=
  fun h2 => absurd (show b.data < a.data from h2) (asymm (show a.data < b.data from h))

/-- Name lookup in a tree or tree builder: `name in tree`, `tree[name]`,
`tree_builder.get(name)`. -/
def tbGet : List Entry → String → Option Entry
  | [], _ => none
  | e :: es, name => if entName e = name then some e else tbGet es name

/-- `tree_builder.insert(name, oid, mode)` followed by the canonical sort of
`write`: sorted upsert (replaces the entry of the same name, otherwise
inserts at the sorted position). -/
def tbInsert : List Entry → String → Oid → FileMode → List Entry
  | [], name, oid, m => [(name, oid, m)]
  | e :: es, name, oid, m =>
    if nameLt name (entName e) then (name, oid, m) :: e :: es
    else if name = entName e then (name, oid, m) :: es
    else e :: tbInsert es name oid m

/-- `tree_builder.remove(name)` for a name known to be present (the source
guards its unconditional uses; the guarded form removes every entry of that
name, of which a canonical tree has at most one). -/
def tbRemove : List Entry → String → List Entry
  | [], _ => []
  | e :: es, name => if entName e = name then tbRemove es name else e :: tbRemove es name

/-- Model of posixpath.split on the character list of the path: the tail is
the part after the last slash, the head is the part before it with trailing
slashes stripped (unless the head consists only of slashes). -/
def osSplitL (l : List Char) : List Char × List Char :=
  let r := l.reverse
  let tail := (r.takeWhile (fun c => c ≠ '/')).reverse
  let headRev := r.dropWhile (fun c => c ≠ '/')
  let head := headRev.reverse
  if head ≠ [] ∧ head.any (fun c => c ≠ '/') then
    ((headRev.dropWhile (fun c => c = '/')).reverse, tail)
  else (head, tail)

/-- os.path.split. -/
def osSplit (s : String) : String × String :=
  let ht := osSplitL s.data
  (⟨ht.1⟩, ⟨ht.2⟩)

/-- The while loop of full_split.  Fuel bounds the number of iterations; each
iteration strictly shrinks a head that is not made only of slashes, so
`length + 1` fuel is enough for every input on which the Python loop
terminates. -/
def fullSplitAux : Nat → String → List String → List String
  | 0, _, parts => parts
  | fuel + 1, head, parts =>
    if head.data = [] then parts
    else
      let ht := osSplit head
      fullSplitAux fuel ht.1 (ht.2 :: parts)

/-- full_split of the source: repeatedly split off the last path component. -/
def full_split (filename : String) : List String :=
  let ht := osSplit filename
  fullSplitAux (ht.1.data.length + 1) ht.1 [ht.2]

/-- One step of posixpath.join: the second operand replaces the path when it
is absolute, otherwise it is appended, with a separator when needed. -/
def osJoinTwo (path b : String) : String :=
  if b.data.head? = some '/' then b
  else if path.data = [] ∨ path.data.getLast? = some '/' then path ++ b
  else path ++ "/" ++ b

/-- os.path.join over a non-empty argument list, as used for
`os.path.join(star parts[1:])`. -/
def osJoin (a : String) (rest : List String) : String :=
  rest.foldl osJoinTwo a

/-- Claim-side constructor of a relative path from its segments. -/
def joinPath : List String → String
  | [] => ""
  | [s] => s
  | s :: rest => s ++ "/" ++ joinPath rest

/-- A well-formed path segment: non-empty and without a separator. -/
def GoodSeg (s : String) : Prop := s.data ≠ [] ∧ ∀ c ∈ s.data, c ≠ '/'

def GoodSegs (ss : List String) : Prop := ∀ s ∈ ss, GoodSeg s

instance (s : String) : Decidable (GoodSeg s) := by unfold GoodSeg; infer_instance

instance (ss : List String) : Decidable (GoodSegs ss) := by unfold GoodSegs; infer_instance

/-- insert_into_tree of the source.  For a multi-segment path the recursion
goes through insert_blob_into_tree, so the leaf is always inserted with the
blob filemode and `attr` only reaches a single-segment leaf.  A blob object
in tree position raises (TreeBuilder rejects it, and `name in tree` on a
blob raises TypeError). -/
def insert_into_tree_aux : Nat → Option GitObj → String → Oid → FileMode → Except PyErr Oid
  | 0, _, _, _, _ => .error .fuelExhausted
  | fuel + 1, tree, filename, oid, attr =>
    match tree with
    | some (.blob _) => .error .typeError
    | _ =>
      let es : List Entry := match tree with
        | some (.tree es) => es
        | _ => []
      let parts := full_split filename
      if parts.length > 1 then
        let sub_directory := parts.headD ""
        let sub_filename := osJoin ((parts.drop 1).headD "") (parts.drop 2)
        let sub_tree : Option GitObj :=
          match tbGet es sub_directory with
          | some e => some (lookupObj (entOid e))
          | none => none
        match insert_into_tree_aux fuel sub_tree sub_filename oid .blob with
        | .error e => .error e
        | .ok oid2 => .ok (.treeId (tbInsert es sub_directory oid2 .tree))
      else
        .ok (.treeId (tbInsert es (parts.headD "") oid attr))

def insert_into_tree (tree : Option GitObj) (filename : String) (oid : Oid) (attr : FileMode) : Except PyErr Oid :=
  insert_into_tree_aux (filename.data.length + 1) tree filename oid attr

def insert_blob_into_tree (tree : Option GitObj) (blob_id : Oid) (filename : String) : Except PyErr Oid :=
  insert_into_tree tree filename blob_id .blob

/-- The tail of remove_file_from_tree after the mutable `filename` variable
has been settled: remove it when it is truthy and present, then write. -/
def removeFinish (tb : List Entry) (filename : Option String) : Oid :=
  match filename with
  | some s =>
    if s ≠ "" ∧ (tbGet tb s).isSome then .treeId (tbRemove tb s)
    else .treeId tb
  | none => .treeId tb

/-- remove_file_from_tree of the source: recursive removal with pruning of a
sub-tree whose new identity equals the empty-tree identity. -/
def remove_file_from_tree_aux : Nat → Option GitObj → String → Except PyErr Oid
  | 0, _, _ => .error .fuelExhausted
  | fuel + 1, tree, filename =>
    match tree with
    | some (.blob _) => .error .typeError
    | _ =>
      let tb : List Entry := match tree with
        | some (.tree es) => es
        | _ => []
      let parts := full_split filename
      if parts.length > 1 then
        let sub_directory := parts.headD ""
        let sub_filename := osJoin ((parts.drop 1).headD "") (parts.drop 2)
        match tbGet tb sub_directory with
        | none =>
          match tree with
          | some o => .ok (objId o)
          | none => .error .attrError
        | some e =>
          match remove_file_from_tree_aux fuel (some (lookupObj (entOid e))) sub_filename with
          | .error err => .error err
          | .ok new_sub_tree_id =>
            if new_sub_tree_id = empty_tree_id then
              .ok (removeFinish tb (some sub_directory))
            else
              .ok (removeFinish (tbInsert tb sub_directory new_sub_tree_id .tree) none)
      else
        .ok (removeFinish tb (some (parts.headD "")))

def remove_file_from_tree (tree : Option GitObj) (filename : String) : Except PyErr Oid :=
  remove_file_from_tree_aux (filename.data.length + 1) tree filename

/-- get_tree_entry of the source.  A single segment is looked up directly; a
longer path looks up its first segment and recurses into the fetched object
without checking that it is a tree, so a blob there raises TypeError at the
next membership test. -/
def get_tree_entry_aux : Nat → GitObj → String → Except PyErr (Option Entry)
  | 0, _, _ => .error .fuelExhausted
  | fuel + 1, tree, filename =>
    let parts := full_split filename
    if parts.length = 1 then
      match tree with
      | .blob _ => .error .typeError
      | .tree es => .ok (tbGet es (parts.headD ""))
    else
      match tree with
      | .blob _ => .error .typeError
      | .tree es =>
        let sub_directory := parts.headD ""
        let sub_filename := osJoin ((parts.drop 1).headD "") (parts.drop 2)
        match tbGet es sub_directory with
        | none => .ok none
        | some e => get_tree_entry_aux fuel (lookupObj (entOid e)) sub_filename

def get_tree_entry (tree : GitObj) (filename : String) : Except PyErr (Option Entry) :=
  get_tree_entry_aux (filename.data.length + 1) tree filename

/-- A staged operation of the TreeModifier log (the tuples
(insert, (blob_id, filename)), (remove, (filename,)), (move, (old, new))). -/
inductive Op where
  | insert (blob_id : Oid) (filename : String)
  | remove (filename : String)
  | move (old_filename new_filename : String)

/-- A value of the flat `todo` dict of simplify.  The Python dict holds an
oid (from an insert, or relocated from the pending map), None (a removal),
or a whole TreeEntry (a move source resolved from the base tree). -/
inductive SimpVal where
  | oid (o : Oid)
  | ent (e : Entry)
  | tomb
  deriving DecidableEq

/-- Python dict upsert: replace in place, else append (insertion order). -/
def dUpsert {α : Type} : List (String × α) → String → α → List (String × α)
  | [], k, v => [(k, v)]
  | (k2, v2) :: rest, k, v =>
    if k2 = k then (k, v) :: rest else (k2, v2) :: dUpsert rest k v

/-- Python dict lookup. -/
def dGet {α : Type} : List (String × α) → String → Option α
  | [], _ => none
  | (k2, v2) :: rest, k => if k2 = k then some v2 else dGet rest k

/-- One iteration of the replay loop of TreeModifier.simplify. -/
def simplifyStep (base : GitObj) (todo : List (String × SimpVal)) : Op → Except PyErr (List (String × SimpVal))
  | .insert blob_id filename => .ok (dUpsert todo filename (.oid blob_id))
  | .remove filename => .ok (dUpsert todo filename .tomb)
  | .move old_filename new_filename =>
    match dGet todo old_filename with
    | some v =>
      match v with
      | .tomb => .error .moveOfDeletedPath
      | _ => .ok (dUpsert (dUpsert todo old_filename .tomb) new_filename v)
    | none =>
      match get_tree_entry base old_filename with
      | .error e => .error e
      | .ok none => .error .moveOfMissingPath
      | .ok (some e) => .ok (dUpsert (dUpsert todo old_filename .tomb) new_filename (.ent e))

/-- The replay loop of simplify over the operation log. -/
def simplifyFlat (base : GitObj) : List Op → List (String × SimpVal) → Except PyErr (List (String × SimpVal))
  | [], todo => .ok todo
  | op :: rest, todo =>
    match simplifyStep base todo op with
    | .error e => .error e
    | .ok todo2 => simplifyFlat base rest todo2

/-- A value of the nested todo_by_directory structure: a nested dict for a
directory, or a leaf carried over from the flat dict. -/
inductive TodoVal where
  | sub (d : List (String × TodoVal))
  | oid (o : Oid)
  | entry (e : Entry)
  | tomb

abbrev TodoDict := List (String × TodoVal)

def leafOfSimp : SimpVal → TodoVal
  | .oid o => .oid o
  | .ent e => .entry e
  | .tomb => .tomb

/-- The descent of the regrouping loop: walk the directory prefix with
setdefault, asserting that every existing intermediate value is a dict, and
set the leaf in the innermost dict (overwriting whatever was there). -/
def todoInsert : TodoDict → List String → String → SimpVal → Except PyErr TodoDict
  | d, [], f, v => .ok (dUpsert d f (leafOfSimp v))
  | d, dir :: rest, f, v =>
    match dGet d dir with
    | some (TodoVal.sub d2) =>
      match todoInsert d2 rest f v with
      | .error e => .error e
      | .ok d3 => .ok (dUpsert d dir (.sub d3))
    | some _ => .error .assertError
    | none =>
      match todoInsert [] rest f v with
      | .error e => .error e
      | .ok d3 => .ok (dUpsert d dir (.sub d3))

/-- The regrouping loop of simplify: nest every flat (path, value) pair by
its directory prefix. -/
def regroup : TodoDict → List (String × SimpVal) → Except PyErr TodoDict
  | tbd, [] => .ok tbd
  | tbd, (filename, v) :: rest =>
    let parts := full_split filename
    match todoInsert tbd parts.dropLast (parts.getLastD "") v with
    | .error e => .error e
    | .ok tbd2 => regroup tbd2 rest

/-- TreeModifier holds the base tree (by identity; the Python object is
determined by it) and the staged operation log. -/
structure TreeModifier where
  tree : Oid
  operations : List Op

def TreeModifier.simplify (tm : TreeModifier) : Except PyErr TodoDict :=
  match simplifyFlat (lookupObj tm.tree) tm.operations [] with
  | .error e => .error e
  | .ok todo => regroup [] todo

/-- The sub-tree fetched by update_tree for a nested diff entry:
`sub_tree_entry = tree_builder.get(key)` and, when present,
`sub_tree = repo[sub_tree_entry.id]` (None when absent). -/
def subObjOf (tb : List Entry) (key : String) : Option GitObj :=
  match tbGet tb key with
  | none => none
  | some e => some (lookupObj (entOid e))

mutual

/-- TreeModifier.update_tree of the source: one builder pass per touched
directory.  A tombstone is removed (pygit2 raises when the name is absent),
a nested dict recurses into the fetched sub-tree (or an empty one) and the
rebuilt sub-tree identity is always inserted as a tree entry, an oid is
inserted as a blob entry, and a TreeEntry leaf (left by a move resolved from
the base tree) is rejected by pygit2 because it is not an oid. -/
def update_tree (tree : Option GitObj) (todo : TodoDict) : Except PyErr Oid :=
  match tree with
  | some (.blob _) => .error .typeError
  | _ =>
    let tb : List Entry := match tree with
      | some (.tree es) => es
      | _ => []
    match update_entries tb todo with
    | .error e => .error e
    | .ok tb2 => .ok (.treeId tb2)
termination_by (sizeOf todo, 1)

def update_entries (tb : List Entry) : TodoDict → Except PyErr (List Entry)
  | [] => .ok tb
  | (key, .tomb) :: rest =>
    match tbGet tb key with
    | none => .error .notFound
    | some _ => update_entries (tbRemove tb key) rest
  | (key, .sub d) :: rest =>
    match update_tree (subObjOf tb key) d with
    | .error e => .error e
    | .ok new_subtree_id => update_entries (tbInsert tb key new_subtree_id .tree) rest
  | (key, .oid o) :: rest => update_entries (tbInsert tb key o .blob) rest
  | (_key, .entry _e) :: _rest => .error .typeError
termination_by l => (sizeOf l, 0)

end

def TreeModifier.apply (tm : TreeModifier) : Except PyErr Oid :=
  match tm.simplify with
  | .error e => .error e
  | .ok todo => update_tree (some (lookupObj tm.tree)) todo

/-- A commit object: tree identity, parent commit ids, message.  Author and
committer come from the repository config and, together with the commit
timestamp, make every created commit id fresh; commit ids are therefore
modelled as positions in the list of created commits. -/
structure CommitObj where
  tree : Oid
  parents : List Nat
  message : String

/-- The object store and the single reference refs/heads/master.  `head` is
`none` while the head is unborn.  `blobs` records every blob written by
create_blob, in creation order. -/
structure RepoState where
  commits : List CommitObj
  head : Option Nat
  blobs : List String

/-- The GitHandler session state.  Filesystem mirroring is out of scope; the
working-copy writes are recorded as events in `workdir`. -/
structure GitHandler where
  repo : RepoState
  working_tree : Oid
  tree_modifier : TreeModifier
  messages : List String
  is_bare : Bool
  update_working_copy : Bool
  workdir : List (String × String)

/-- Hash of the UTF-8 encoding of a text, modelled injectively (pygit2.hash).
The byte string is modelled by the text itself. -/
def git_hash (data : String) : Oid := .blobId data

/-- get_last_tree: the empty tree while the head is unborn, otherwise the
tree of the head commit.  Returns the identity (which determines the tree). -/
def get_last_tree (g : GitHandler) : Except PyErr Oid :=
  match g.repo.head with
  | none => .ok empty_tree_id
  | some h =>
    match g.repo.commits.get? h with
    | none => .error .keyError
    | some c => .ok c.tree

/-- Errors surfaced by GitHandler.commit. -/
inductive CommitError where
  | concurrentModification
  | py (e : PyErr)
  deriving DecidableEq

/-- The commit-creation tail of GitHandler.commit: build the commit object,
advance the reference, clear the messages (saveCurrentCommit and the index
write touch only the out-of-scope filesystem). -/
def createCommitStep (g : GitHandler) (parents : List Nat) : Option CommitError × GitHandler :=
  let c : CommitObj :=
    { tree := g.working_tree, parents := parents,
      message := String.intercalate "\n" g.messages }
  let repo2 : RepoState :=
    { commits := g.repo.commits ++ [c], head := some g.repo.commits.length,
      blobs := g.repo.blobs }
  (none, { g with repo := repo2, messages := [] })

/-- GitHandler.commit of the source.  The pair returned is (raised error if
any, the session state at return or raise time). -/
def GitHandler.commit (g : GitHandler) : Option CommitError × GitHandler :=
  match get_last_tree g with
  | .error e => (some (.py e), g)
  | .ok lastTree =>
    if g.tree_modifier.tree ≠ lastTree then
      (some .concurrentModification, g)
    else
      match g.tree_modifier.apply with
      | .error e => (some (.py e), g)
      | .ok newTree =>
        let g2 := { g with working_tree := newTree,
                           tree_modifier := { tree := newTree, operations := [] } }
        match g2.repo.head with
        | none => createCommitStep g2 []
        | some h =>
          match g2.repo.commits.get? h with
          | none => (some (.py .keyError), g2)
          | some c =>
            if c.tree = g2.working_tree then (none, g2)
            else createCommitStep g2 [h]

/-- GitHandler.write_file of the source: a write whose content hash matches
the existing entry returns before creating a blob, staging an operation,
writing the working copy or recording a message line. -/
def GitHandler.write_file (g : GitHandler) (filename content : String) : Except PyErr GitHandler :=
  let data := content
  match get_tree_entry (lookupObj g.working_tree) filename with
  | .error e => .error e
  | .ok existing_entry =>
    let type_line : String := match existing_entry with
      | some _ => "M"
      | none => "A"
    match existing_entry with
    | some e =>
      if entOid e = git_hash data then .ok g
      else .ok (writeFileTail g filename content type_line)
    | none => .ok (writeFileTail g filename content type_line)
where
  writeFileTail (g : GitHandler) (filename content type_line : String) : GitHandler :=
    let blob_id := git_hash content
    let repo2 : RepoState :=
      { commits := g.repo.commits, head := g.repo.head,
        blobs := g.repo.blobs ++ [content] }
    let tm2 : TreeModifier :=
      { tree := g.tree_modifier.tree,
        operations := g.tree_modifier.operations ++ [Op.insert blob_id filename] }
    let g2 := { g with repo := repo2, tree_modifier := tm2 }
    let g3 := if ¬ g2.is_bare ∧ g2.update_working_copy
              then { g2 with workdir := g2.workdir ++ [(filename, content)] }
              else g2
    { g3 with messages := g3.messages ++ ["    " ++ type_line ++ "  " ++ filename] }


/-- Entries of an optional tree object, as seen by TreeBuilder(tree). -/
def optEntries : Option GitObj → List Entry
  | some (.tree es) => es
  | _ => []

/-- get_tree_entry re-expressed by recursion on the segment list. -/
def gteSpec : GitObj → List String → Except PyErr (Option Entry)
  | .blob _, _ => .error .typeError
  | .tree _, [] => .ok none
  | .tree es, [n] => .ok (tbGet es n)
  | .tree es, n :: rest =>
    match tbGet es n with
    | none => .ok none
    | some e => gteSpec (lookupObj (entOid e)) rest

/-- insert_into_tree re-expressed by recursion on the segment list. -/
def insSpec : Option GitObj → List String → Oid → FileMode → Except PyErr Oid
  | some (.blob _), _, _, _ => .error .typeError
  | tree, [], oid, attr => .ok (.treeId (tbInsert (optEntries tree) "" oid attr))
  | tree, [n], oid, attr => .ok (.treeId (tbInsert (optEntries tree) n oid attr))
  | tree, n :: rest, oid, _attr =>
    let es := optEntries tree
    let sub_tree : Option GitObj :=
      match tbGet es n with
      | some e => some (lookupObj (entOid e))
      | none => none
    match insSpec sub_tree rest oid .blob with
    | .error e => .error e
    | .ok oid2 => .ok (.treeId (tbInsert es n oid2 .tree))

/-- remove_file_from_tree re-expressed by recursion on the segment list. -/
def rmSpec : Option GitObj → List String → Except PyErr Oid
  | some (.blob _), _ => .error .typeError
  | tree, [] => .ok (removeFinish (optEntries tree) (some ""))
  | tree, [n] => .ok (removeFinish (optEntries tree) (some n))
  | tree, n :: rest =>
    let tb := optEntries tree
    match tbGet tb n with
    | none =>
      match tree with
      | some o => .ok (objId o)
      | none => .error .attrError
    | some e =>
      match rmSpec (some (lookupObj (entOid e))) rest with
      | .error err => .error err
      | .ok new_sub_tree_id =>
        if new_sub_tree_id = empty_tree_id then .ok (removeFinish tb (some n))
        else .ok (removeFinish (tbInsert tb n new_sub_tree_id .tree) none)


/-- The leaf filemode insert_into_tree actually stores: the requested mode for
a single-segment path, the blob mode otherwise (the recursion goes through
insert_blob_into_tree). -/
def leafMode (ss : List String) (m : FileMode) : FileMode :=
  if ss.length = 1 then m else .blob

/-- Run a tree operation on the result of a previous one, propagating the
exception if it raised. -/
def thenTree (x : Except PyErr Oid) (f : Oid → Except PyErr Oid) : Except PyErr Oid :=
  match x with
  | .error e => .error e
  | .ok v => f v

/-- Mode and object type of a canonical entry agree. -/
def modeOk (e : Entry) : Prop :=
  match entOid e with
  | .blobId _ => entMode e = .blob
  | .treeId _ => entMode e = .tree

/-- A canonical (git-produced) object: every tree level is strictly sorted by
name, entry modes agree with the stored object type, and sub-objects are
canonical as well.  Every identity the store writes satisfies this. -/
inductive Oid.WF : Oid → Prop where
  | blob (s : String) : Oid.WF (.blobId s)
  | tree (es : List Entry)
      (hsort : List.Pairwise (fun a b : Entry => nameLt (entName a) (entName b)) es)
      (hmode : ∀ e ∈ es, modeOk e)
      (hrec : ∀ e ∈ es, Oid.WF (entOid e)) : Oid.WF (.treeId es)

/-- Every strict prefix of the path that exists in the tree is an entry whose
identity is not the empty-tree identity (and recursively below). -/
def noEmptyAncestors : List Entry → List String → Prop
  | _, [] => True
  | _, [_] => True
  | es, d :: rest =>
    match tbGet es d with
    | none => True
    | some e =>
      entOid e ≠ empty_tree_id ∧
      (match entOid e with
       | .treeId es2 => noEmptyAncestors es2 rest
       | _ => True)

/-- The fresh directory chain built when inserting below a missing prefix. -/
def chainOf : List String → Oid → FileMode → List Entry
  | [], c, m => [("", c, m)]
  | [n], c, m => [(n, c, m)]
  | n :: rest, c, _m => [(n, .treeId (chainOf rest c .blob), .tree)]

/-- No tree-typed entry along the given path carries the empty-tree identity. -/
def noEmptyOnPath : Oid → List String → Prop
  | _, [] => True
  | .blobId _, _ :: _ => True
  | .treeId es, d :: rest =>
    match tbGet es d with
    | none => True
    | some e => (entMode e = .tree → entOid e ≠ empty_tree_id) ∧ noEmptyOnPath (entOid e) rest

/-- A one-file tree used by the commit session states below. -/
def c6tree : Oid := .treeId [("f", .blobId "hello", .blob)]

/-- A session whose staged base tree disagrees with the head commit tree. -/
def c6sess : GitHandler :=
  { repo := { commits := [{ tree := c6tree, parents := [], message := "" }],
              head := some 0, blobs := [] },
    working_tree := c6tree,
    tree_modifier := { tree := .treeId [], operations := [] },
    messages := [], is_bare := true, update_working_copy := false, workdir := [] }

/-- A session right after a successful publish: head commit tree, working
tree and base tree agree and the operation log is empty. -/
def c7sess : GitHandler :=
  { repo := { commits := [{ tree := .treeId [("f", .blobId "hello", .blob)],
                            parents := [], message := "" }],
              head := some 0, blobs := [] },
    working_tree := .treeId [("f", .blobId "hello", .blob)],
    tree_modifier := { tree := .treeId [("f", .blobId "hello", .blob)], operations := [] },
    messages := [], is_bare := true, update_working_copy := false, workdir := [] }

/-- A fresh session over a base tree holding the file f with content hello. -/
def c10sess : GitHandler :=
  { repo := { commits := [], head := none, blobs := [] },
    working_tree := .treeId [("f", .blobId "hello", .blob)],
    tree_modifier := { tree := .treeId [("f", .blobId "hello", .blob)], operations := [] },
    messages := [], is_bare := true, update_working_copy := false, workdir := [] }

@[simp] theorem entName_mk (n : String) (o : Oid) (m : FileMode) : entName (n, o, m) = n := rfl

@[simp] theorem entOid_mk (n : String) (o : Oid) (m : FileMode) : entOid (n, o, m) = o := rfl

@[simp] theorem entMode_mk (n : String) (o : Oid) (m : FileMode) : entMode (n, o, m) = m := rfl

theorem tbGet_cons_eq {e : Entry} {n : String} (es : List Entry) (h : entName e = n) :
    tbGet (e :: es) n = some e := by
  simp only [tbGet, if_pos h]

theorem tbGet_cons_ne {e : Entry} {n : String} (es : List Entry) (h : entName e ≠ n) :
    tbGet (e :: es) n = tbGet es n := by
  simp only [tbGet, if_neg h]

theorem tbInsert_cons_lt {e : Entry} {n : String} (es : List Entry) (o : Oid) (m : FileMode)
    (h : nameLt n (entName e)) : tbInsert (e :: es) n o m = (n, o, m) :: e :: es := by
  simp only [tbInsert, if_pos h]

theorem tbInsert_cons_eq {e : Entry} {n : String} (es : List Entry) (o : Oid) (m : FileMode)
    (h1 : ¬ nameLt n (entName e)) (h2 : n = entName e) :
    tbInsert (e :: es) n o m = (n, o, m) :: es := by
  simp only [tbInsert, if_neg h1, if_pos h2]

theorem tbInsert_cons_gt {e : Entry} {n : String} (es : List Entry) (o : Oid) (m : FileMode)
    (h1 : ¬ nameLt n (entName e)) (h2 : n ≠ entName e) :
    tbInsert (e :: es) n o m = e :: tbInsert es n o m := by
  simp only [tbInsert, if_neg h1, if_neg h2]

theorem tbRemove_cons_eq {e : Entry} {n : String} (es : List Entry) (h : entName e = n) :
    tbRemove (e :: es) n = tbRemove es n := by
  simp only [tbRemove, if_pos h]

theorem tbRemove_cons_ne {e : Entry} {n : String} (es : List Entry) (h : entName e ≠ n) :
    tbRemove (e :: es) n = e :: tbRemove es n := by
  simp only [tbRemove, if_neg h]

theorem tbGet_none_iff (es : List Entry) (n : String) :
    tbGet es n = none ↔ ∀ e ∈ es, entName e ≠ n := by
  induction es with
  | nil => simp [tbGet]
  | cons e es ih =>
    by_cases h : entName e = n
    · rw [tbGet_cons_eq es h]
      simp [h]
    · rw [tbGet_cons_ne es h]
      simp [ih, h]

theorem tbGet_tbInsert_self (es : List Entry) (n : String) (o : Oid) (m : FileMode) :
    tbGet (tbInsert es n o m) n = some (n, o, m) := by
  induction es with
  | nil => simp [tbInsert, tbGet]
  | cons e es ih =>
    by_cases h1 : nameLt n (entName e)
    · rw [tbInsert_cons_lt es o m h1, tbGet_cons_eq _ (by simp)]
    · by_cases h2 : n = entName e
      · rw [tbInsert_cons_eq es o m h1 h2, tbGet_cons_eq _ (by simp)]
      · rw [tbInsert_cons_gt es o m h1 h2,
            tbGet_cons_ne _ (fun he => h2 he.symm)]
        exact ih

theorem tbRemove_of_absent (es : List Entry) (n : String)
    (h : ∀ e ∈ es, entName e ≠ n) : tbRemove es n = es := by
  induction es with
  | nil => rfl
  | cons e es ih =>
    rw [tbRemove_cons_ne es (h e (by simp))]
    rw [ih (fun x hx => h x (by simp [hx]))]

theorem tbRemove_tbInsert (es : List Entry) (n : String) (o : Oid) (m : FileMode)
    (h : ∀ e ∈ es, entName e ≠ n) : tbRemove (tbInsert es n o m) n = es := by
  induction es with
  | nil => simp [tbInsert, tbRemove]
  | cons e es ih =>
    have h1 : entName e ≠ n := h e (by simp)
    by_cases h2 : nameLt n (entName e)
    · rw [tbInsert_cons_lt es o m h2, tbRemove_cons_eq _ (by simp),
          tbRemove_cons_ne es h1]
      rw [tbRemove_of_absent es n (fun x hx => h x (by simp [hx]))]
    · have h3 : n ≠ entName e := fun he => h1 he.symm
      rw [tbInsert_cons_gt es o m h2 h3, tbRemove_cons_ne _ h1]
      rw [ih (fun x hx => h x (by simp [hx]))]

theorem tbInsert_tbInsert_same (es : List Entry) (n : String) (o o2 : Oid) (m m2 : FileMode) :
    tbInsert (tbInsert es n o m) n o2 m2 = tbInsert es n o2 m2 := by
  induction es with
  | nil =>
    simp [tbInsert, entName_mk, nameLt_irrefl]
  | cons e es ih =>
    by_cases h1 : nameLt n (entName e)
    · rw [tbInsert_cons_lt es o m h1, tbInsert_cons_lt es o2 m2 h1,
          tbInsert_cons_eq (e :: es) o2 m2 (by simpa using nameLt_irrefl n) (by simp)]
    · by_cases h2 : n = entName e
      · rw [tbInsert_cons_eq es o m h1 h2, tbInsert_cons_eq es o2 m2 h1 h2,
            tbInsert_cons_eq es o2 m2 (by simpa using nameLt_irrefl n) (by simp)]
      · rw [tbInsert_cons_gt es o m h1 h2, tbInsert_cons_gt es o2 m2 h1 h2,
            tbInsert_cons_gt (tbInsert es n o m) o2 m2 h1 h2, ih]

theorem tbInsert_mem_sorted (es : List Entry) (n : String) (o : Oid) (m : FileMode)
    (hs : List.Pairwise (fun a b : Entry => nameLt (entName a) (entName b)) es)
    (hm : (n, o, m) ∈ es) : tbInsert es n o m = es := by
  induction es with
  | nil => cases hm
  | cons e es ih =>
    rcases List.mem_cons.mp hm with he | he
    · have hn : n = entName e := by rw [← he]; simp
      rw [tbInsert_cons_eq es o m (by rw [← hn]; exact nameLt_irrefl n) hn, he]
    · have hlt : nameLt (entName e) n := by
        have h2 := (List.pairwise_cons.mp hs).1 _ he
        simpa using h2
      have h1 : ¬ nameLt n (entName e) := nameLt_asymm hlt
      have h2 : n ≠ entName e := fun hc => by
        rw [hc] at hlt
        exact nameLt_irrefl _ hlt
      rw [tbInsert_cons_gt es o m h1 h2]
      rw [ih (List.pairwise_cons.mp hs).2 he]

theorem tbGet_mem (es : List Entry) (n : String) (e : Entry) (h : tbGet es n = some e) :
    e ∈ es ∧ entName e = n := by
  induction es with
  | nil => cases h
  | cons e2 es ih =>
    by_cases h1 : entName e2 = n
    · rw [tbGet_cons_eq es h1] at h
      cases h
      exact ⟨by simp, h1⟩
    · rw [tbGet_cons_ne es h1] at h
      rcases ih h with ⟨h2, h3⟩
      exact ⟨by simp [h2], h3⟩

theorem takeWhile_append_all {α : Type} {p : α → Bool} (xs ys : List α)
    (h : ∀ x ∈ xs, p x = true) : (xs ++ ys).takeWhile p = xs ++ ys.takeWhile p := by
  induction xs with
  | nil => simp
  | cons a l ih =>
    have ha := h a (by simp)
    simp [List.takeWhile_cons, ha, ih (fun x hx => h x (by simp [hx]))]

theorem dropWhile_append_all {α : Type} {p : α → Bool} (xs ys : List α)
    (h : ∀ x ∈ xs, p x = true) : (xs ++ ys).dropWhile p = ys.dropWhile p := by
  induction xs with
  | nil => simp
  | cons a l ih =>
    have ha := h a (by simp)
    simp [List.dropWhile_cons, ha, ih (fun x hx => h x (by simp [hx]))]

theorem osSplitL_def (l : List Char) :
    osSplitL l =
      (if (l.reverse.dropWhile (fun c => c ≠ '/')).reverse ≠ [] ∧
          ((l.reverse.dropWhile (fun c => c ≠ '/')).reverse).any (fun c => c ≠ '/') then
        (((l.reverse.dropWhile (fun c => c ≠ '/')).dropWhile (fun c => c = '/')).reverse,
         (l.reverse.takeWhile (fun c => c ≠ '/')).reverse)
      else ((l.reverse.dropWhile (fun c => c ≠ '/')).reverse,
            (l.reverse.takeWhile (fun c => c ≠ '/')).reverse)) := rfl

theorem osSplitL_noslash (l : List Char) (h : ∀ c ∈ l, c ≠ '/') :
    osSplitL l = ([], l) := by
  have hp : ∀ c ∈ l.reverse, (fun c => decide (c ≠ '/')) c = true := by
    intro c hc
    simp [h c (List.mem_reverse.mp hc)]
  have htw : l.reverse.takeWhile (fun c => c ≠ '/') = l.reverse :=
    List.takeWhile_eq_self_iff.mpr hp
  have hdw : l.reverse.dropWhile (fun c => c ≠ '/') = [] :=
    List.dropWhile_eq_nil_iff.mpr hp
  rw [osSplitL_def, hdw, htw]
  simp

theorem osSplitL_snoc (a t : List Char)
    (ha0 : a ≠ []) (has : ∃ c ∈ a, c ≠ '/') (halast : a.getLast? ≠ some '/')
    (ht : ∀ c ∈ t, c ≠ '/') :
    osSplitL (a ++ '/' :: t) = (a, t) := by
  have hrev : (a ++ '/' :: t).reverse = t.reverse ++ '/' :: a.reverse := by
    simp
  have hpt : ∀ c ∈ t.reverse, (fun c => decide (c ≠ '/')) c = true := by
    intro c hc
    simp [ht c (List.mem_reverse.mp hc)]
  have htw : (t.reverse ++ '/' :: a.reverse).takeWhile (fun c => c ≠ '/') = t.reverse := by
    rw [takeWhile_append_all _ _ hpt, List.takeWhile_cons]
    simp
  have hdw : (t.reverse ++ '/' :: a.reverse).dropWhile (fun c => c ≠ '/') = '/' :: a.reverse := by
    rw [dropWhile_append_all _ _ hpt, List.dropWhile_cons]
    simp
  obtain ⟨cl, cls, hrevA⟩ : ∃ cl cls, a.reverse = cl :: cls := by
    cases hA : a.reverse with
    | nil => exact absurd (by simpa using hA) ha0
    | cons cl cls => exact ⟨cl, cls, rfl⟩
  have hcl : cl ≠ '/' := by
    intro hcon
    apply halast
    rw [← List.head?_reverse, hrevA, hcon]
    rfl
  have hcond : (('/' :: a.reverse).reverse ≠ [] ∧
      (('/' :: a.reverse).reverse).any (fun c => c ≠ '/')) := by
    constructor
    · simp
    · rcases has with ⟨c, hcmem, hcne⟩
      refine List.any_eq_true.mpr ⟨c, ?_, by simp [hcne]⟩
      simp [hcmem]
  rw [osSplitL_def, hrev, hdw, htw, if_pos hcond]
  have hstrip : ('/' :: a.reverse).dropWhile (fun c => c = '/') = a.reverse := by
    rw [List.dropWhile_cons]
    simp only [decide_eq_true_eq, if_pos rfl]
    rw [hrevA, List.dropWhile_cons]
    simp [hcl]
  rw [hstrip]
  simp

theorem joinPath_cons_ne (s : String) (l : List String) (h : l ≠ []) :
    joinPath (s :: l) = s ++ "/" ++ joinPath l := by
  cases l with
  | nil => exact absurd rfl h
  | cons r rs => rfl

theorem joinPath_data_cons (s : String) (l : List String) (h : l ≠ []) :
    (joinPath (s :: l)).data = s.data ++ '/' :: (joinPath l).data := by
  rw [joinPath_cons_ne s l h, String.data_append, String.data_append]
  simp

theorem joinPath_props (ss : List String) (hg : GoodSegs ss) (hne : ss ≠ []) :
    (joinPath ss).data ≠ [] ∧ (∃ c ∈ (joinPath ss).data, c ≠ '/') ∧
    (joinPath ss).data.getLast? ≠ some '/' := by
  induction ss with
  | nil => exact absurd rfl hne
  | cons s rest ih =>
    have hs : GoodSeg s := hg s (by simp)
    cases rest with
    | nil =>
      refine ⟨hs.1, ?_, ?_⟩
      · obtain ⟨c, cs, hc⟩ : ∃ c cs, s.data = c :: cs := by
          cases hd : s.data with
          | nil => exact absurd hd hs.1
          | cons c cs => exact ⟨c, cs, rfl⟩
        exact ⟨c, by simp [joinPath, hc], hs.2 c (by simp [hc])⟩
      · intro hcon
        have hgl := List.getLast?_eq_getLast s.data hs.1
        rw [show joinPath [s] = s from rfl, hgl] at hcon
        injection hcon with hcon
        exact hs.2 _ (List.getLast_mem hs.1) hcon
    | cons r rs =>
      have ihr := ih (fun x hx => hg x (by simp [hx])) (by simp)
      rw [joinPath_data_cons s (r :: rs) (by simp)]
      refine ⟨by simp, ?_, ?_⟩
      · obtain ⟨c, cs, hc⟩ : ∃ c cs, s.data = c :: cs := by
          cases hd : s.data with
          | nil => exact absurd hd hs.1
          | cons c cs => exact ⟨c, cs, rfl⟩
        exact ⟨c, by simp [hc], hs.2 c (by simp [hc])⟩
      · rw [List.getLast?_append]
        obtain ⟨z, hz⟩ : ∃ z, (joinPath (r :: rs)).data.getLast? = some z := by
          cases hzz : (joinPath (r :: rs)).data.getLast? with
          | none =>
            have h2 : (joinPath (r :: rs)).data = [] := by
              cases hd : (joinPath (r :: rs)).data with
              | nil => rfl
              | cons c cs =>
                rw [hd] at hzz
                simp [List.getLast?_eq_getLast] at hzz
            exact absurd h2 ihr.1
          | some z => exact ⟨z, rfl⟩
        have hz2 : ('/' :: (joinPath (r :: rs)).data).getLast? = some z := by
          rw [show ('/' :: (joinPath (r :: rs)).data) = ['/'] ++ (joinPath (r :: rs)).data from rfl,
              List.getLast?_append, hz]
          rfl
        rw [hz2]
        simp only [Option.or_some]
        intro hcon
        injection hcon with hcon
        rw [hcon] at hz
        exact ihr.2.2 hz

theorem joinPath_snoc (init : List String) (t : String) (hne : init ≠ []) :
    joinPath (init ++ [t]) = joinPath init ++ "/" ++ t := by
  induction init with
  | nil => exact absurd rfl hne
  | cons s rest ih =>
    cases rest with
    | nil => rfl
    | cons r rs =>
      have h1 : (s :: r :: rs) ++ [t] = s :: ((r :: rs) ++ [t]) := rfl
      rw [h1, joinPath_cons_ne s ((r :: rs) ++ [t]) (by simp),
          ih (by simp), joinPath_cons_ne s (r :: rs) (by simp)]
      simp [String.append_assoc]

theorem osSplit_joinPath_snoc (init : List String) (t : String)
    (hg : GoodSegs (init ++ [t])) :
    osSplit (joinPath (init ++ [t])) = (joinPath init, t) := by
  have hgt : GoodSeg t := hg t (by simp)
  cases init with
  | nil =>
    show osSplit (joinPath [t]) = ("", t)
    have h1 : osSplitL t.data = ([], t.data) := osSplitL_noslash t.data hgt.2
    show (⟨(osSplitL (joinPath [t]).data).1⟩, ⟨(osSplitL (joinPath [t]).data).2⟩) = (("" : String), t)
    rw [show joinPath [t] = t from rfl, h1]
  | cons i is =>
    have hgi : GoodSegs (i :: is) := fun x hx => hg x (List.mem_append_left _ hx)
    have hprops := joinPath_props (i :: is) hgi (by simp)
    have hdata : (joinPath ((i :: is) ++ [t])).data =
        (joinPath (i :: is)).data ++ '/' :: t.data := by
      rw [joinPath_snoc (i :: is) t (by simp), String.data_append, String.data_append]
      simp
    have h1 : osSplitL ((joinPath (i :: is)).data ++ '/' :: t.data) =
        ((joinPath (i :: is)).data, t.data) :=
      osSplitL_snoc _ _ hprops.1 hprops.2.1 hprops.2.2 hgt.2
    show (⟨(osSplitL (joinPath ((i :: is) ++ [t])).data).1⟩,
          ⟨(osSplitL (joinPath ((i :: is) ++ [t])).data).2⟩) = (joinPath (i :: is), t)
    rw [hdata, h1]

theorem full_split_def (s : String) :
    full_split s = fullSplitAux ((osSplit s).1.data.length + 1) (osSplit s).1 [(osSplit s).2] := rfl

theorem fullSplitAux_joinPath (ss : List String) (hg : GoodSegs ss) :
    ∀ parts fuel, (joinPath ss).data.length < fuel →
      fullSplitAux fuel (joinPath ss) parts = ss ++ parts := by
  induction ss using List.reverseRecOn with
  | nil =>
    intro parts fuel hf
    obtain ⟨k, rfl⟩ : ∃ k, fuel = k + 1 := ⟨fuel - 1, by omega⟩
    simp [fullSplitAux, joinPath]
  | append_singleton init t ih =>
    intro parts fuel hf
    have hg_init : GoodSegs init := fun x hx => hg x (List.mem_append_left _ hx)
    have hgt : GoodSeg t := hg t (by simp)
    have hne : (joinPath (init ++ [t])).data ≠ [] :=
      (joinPath_props (init ++ [t]) hg (by simp)).1
    obtain ⟨k, rfl⟩ : ∃ k, fuel = k + 1 := ⟨fuel - 1, by omega⟩
    rw [fullSplitAux, if_neg hne]
    have hsp := osSplit_joinPath_snoc init t hg
    simp only [hsp]
    cases init with
    | nil =>
      have h0 : (joinPath ([] : List String)).data.length < k := by
        have ht1 : t.data.length ≥ 1 := by
          cases hd : t.data with
          | nil => exact absurd hd hgt.1
          | cons c cs => simp
        have h2 : (joinPath [t]).data.length = t.data.length := rfl
        simp only [List.nil_append] at hf
        rw [h2] at hf
        show ("" : String).data.length < k
        simp only [show ("" : String).data = [] from rfl, List.length_nil]
        omega
      rw [ih hg_init (t :: parts) k h0]
      rfl
    | cons i is =>
      have hlen : (joinPath ((i :: is) ++ [t])).data.length =
          (joinPath (i :: is)).data.length + 1 + t.data.length := by
        rw [joinPath_snoc (i :: is) t (by simp), String.data_append, String.data_append]
        simp
        omega
      have ht1 : t.data.length ≥ 1 := by
        cases hd : t.data with
        | nil => exact absurd hd hgt.1
        | cons c cs => simp
      have h0 : (joinPath (i :: is)).data.length < k := by
        rw [hlen] at hf
        omega
      rw [ih hg_init (t :: parts) k h0]
      simp

theorem full_split_joinPath (ss : List String) (hg : GoodSegs ss) (hne : ss ≠ []) :
    full_split (joinPath ss) = ss := by
  obtain ⟨init, t, rfl⟩ : ∃ init t, ss = init ++ [t] :=
    ⟨ss.dropLast, ss.getLast hne, (List.dropLast_append_getLast hne).symm⟩
  rw [full_split_def, osSplit_joinPath_snoc init t hg]
  have hg_init : GoodSegs init := fun x hx => hg x (List.mem_append_left _ hx)
  rw [fullSplitAux_joinPath init hg_init [t] ((joinPath init).data.length + 1) (by omega)]

theorem fullSplitAux_ne_nil (fuel : Nat) :
    ∀ (h : String) (parts : List String), parts ≠ [] → fullSplitAux fuel h parts ≠ [] := by
  induction fuel with
  | zero => intro h parts hp; simpa [fullSplitAux] using hp
  | succ k ih =>
    intro h parts hp
    rw [fullSplitAux]
    by_cases hh : h.data = []
    · rw [if_pos hh]; exact hp
    · rw [if_neg hh]
      exact ih _ _ (by simp)

theorem full_split_ne_nil (s : String) : full_split s ≠ [] := by
  rw [full_split_def]
  exact fullSplitAux_ne_nil _ _ _ (by simp)

theorem osJoin_joinPath (acc : List String) :
    ∀ rest, GoodSegs acc → acc ≠ [] → GoodSegs rest →
      osJoin (joinPath acc) rest = joinPath (acc ++ rest) := by
  intro rest
  induction rest generalizing acc with
  | nil => intro _ _ _; simp [osJoin]
  | cons b bs ih =>
    intro hga hne hgr
    have hgb : GoodSeg b := hgr b (by simp)
    have hprops := joinPath_props acc hga hne
    have hstep : osJoinTwo (joinPath acc) b = joinPath acc ++ "/" ++ b := by
      rw [osJoinTwo]
      have hb : b.data.head? ≠ some '/' := by
        intro hcon
        cases hd : b.data with
        | nil => rw [hd] at hcon; cases hcon
        | cons c cs =>
          rw [hd] at hcon
          injection hcon with hcon
          exact hgb.2 c (by simp [hd]) hcon
      rw [if_neg hb, if_neg (by push_neg; exact ⟨hprops.1, hprops.2.2⟩)]
    have hacc2 : joinPath acc ++ "/" ++ b = joinPath (acc ++ [b]) :=
      (joinPath_snoc acc b hne).symm
    show (b :: bs).foldl osJoinTwo (joinPath acc) = joinPath (acc ++ b :: bs)
    rw [List.foldl_cons, hstep, hacc2]
    have h2 := ih (acc ++ [b]) (fun x hx => by
        rcases List.mem_append.mp hx with h | h
        · exact hga x h
        · simp at h; rw [h]; exact hgb)
      (by simp) (fun x hx => hgr x (by simp [hx]))
    show osJoin (joinPath (acc ++ [b])) bs = joinPath (acc ++ b :: bs)
    rw [h2]
    simp

theorem osJoin_eq_joinPath (a : String) (rest : List String)
    (hg : GoodSegs (a :: rest)) : osJoin a rest = joinPath (a :: rest) := by
  have h1 := osJoin_joinPath [a] rest (fun x hx => by simp at hx; rw [hx]; exact hg a (by simp))
    (by simp) (fun x hx => hg x (by simp [hx]))
  simpa using h1


theorem joinPath_length_fuel (ss : List String) (hg : GoodSegs ss) :
    ss.length ≤ (joinPath ss).data.length + 1 := by
  induction ss with
  | nil => simp
  | cons s rest ih =>
    have hs : GoodSeg s := hg s (by simp)
    have hs1 : 1 ≤ s.data.length := by
      cases hd : s.data with
      | nil => exact absurd hd hs.1
      | cons c cs => simp
    cases rest with
    | nil => simp
    | cons r rs =>
      have ihr := ih (fun x hx => hg x (by simp at hx ⊢; tauto))
      rw [joinPath_data_cons s (r :: rs) (by simp)]
      simp only [List.length_cons, List.length_append] at ihr ⊢
      omega

theorem gte_aux_eq (ss : List String) : ∀ (obj : GitObj) (fuel : Nat),
    GoodSegs ss → ss ≠ [] → ss.length ≤ fuel →
    get_tree_entry_aux fuel obj (joinPath ss) = gteSpec obj ss := by
  induction ss with
  | nil => intro obj fuel _ hne _; exact absurd rfl hne
  | cons n rest ih =>
    intro obj fuel hg hne hf
    have hf1 : 1 ≤ fuel := le_trans (by simp) hf
    obtain ⟨k, rfl⟩ : ∃ k, fuel = k + 1 := ⟨fuel - 1, by omega⟩
    have hsplit : full_split (joinPath (n :: rest)) = n :: rest :=
      full_split_joinPath _ hg (by simp)
    cases rest with
    | nil =>
      cases obj with
      | blob d => simp [get_tree_entry_aux, hsplit, gteSpec]
      | tree es => simp [get_tree_entry_aux, hsplit, gteSpec]
    | cons r rs =>
      cases obj with
      | blob d => simp [get_tree_entry_aux, hsplit, gteSpec]
      | tree es =>
        have hjoin : osJoin r rs = joinPath (r :: rs) :=
          osJoin_eq_joinPath r rs (fun x hx => hg x (by simp at hx ⊢; tauto))
        simp only [get_tree_entry_aux, hsplit]
        rw [if_neg (by simp)]
        simp only [List.headD_cons, List.drop_succ_cons, List.drop_zero, hjoin]
        cases htb : tbGet es n with
        | none => simp [gteSpec, htb]
        | some e =>
          simp only [gteSpec, htb]
          exact ih (lookupObj (entOid e)) k
            (fun x hx => hg x (by simp at hx ⊢; tauto))
            (by simp) (by simp at hf ⊢; omega)

theorem get_tree_entry_joinPath (obj : GitObj) (ss : List String)
    (hg : GoodSegs ss) (hne : ss ≠ []) :
    get_tree_entry obj (joinPath ss) = gteSpec obj ss :=
  gte_aux_eq ss obj _ hg hne (joinPath_length_fuel ss hg)

theorem ins_aux_eq (ss : List String) : ∀ (tree : Option GitObj) (fuel : Nat)
    (oid : Oid) (attr : FileMode),
    GoodSegs ss → ss ≠ [] → ss.length ≤ fuel →
    insert_into_tree_aux fuel tree (joinPath ss) oid attr = insSpec tree ss oid attr := by
  induction ss with
  | nil => intro _ _ _ _ _ hne _; exact absurd rfl hne
  | cons n rest ih =>
    intro tree fuel oid attr hg hne hf
    have hf1 : 1 ≤ fuel := le_trans (by simp) hf
    obtain ⟨k, rfl⟩ : ∃ k, fuel = k + 1 := ⟨fuel - 1, by omega⟩
    have hsplit : full_split (joinPath (n :: rest)) = n :: rest :=
      full_split_joinPath _ hg (by simp)
    cases rest with
    | nil =>
      cases tree with
      | none => simp [insert_into_tree_aux, hsplit, insSpec, optEntries]
      | some obj =>
        cases obj with
        | blob d => simp [insert_into_tree_aux, hsplit, insSpec]
        | tree es => simp [insert_into_tree_aux, hsplit, insSpec, optEntries]
    | cons r rs =>
      have hjoin : osJoin r rs = joinPath (r :: rs) :=
        osJoin_eq_joinPath r rs (fun x hx => hg x (by simp at hx ⊢; tauto))
      have hrec := fun sub_tree => ih sub_tree k oid FileMode.blob
        (fun x hx => hg x (by simp at hx ⊢; tauto)) (by simp) (by simp at hf ⊢; omega)
      cases tree with
      | none =>
        simp only [insert_into_tree_aux, hsplit]
        rw [if_pos (by simp)]
        simp only [List.headD_cons, List.drop_succ_cons, List.drop_zero, hjoin]
        simp only [tbGet, hrec none]
        simp only [insSpec, optEntries, tbGet]
      | some obj =>
        cases obj with
        | blob d => simp [insert_into_tree_aux, hsplit, insSpec]
        | tree es =>
          simp only [insert_into_tree_aux, hsplit]
          rw [if_pos (by simp)]
          simp only [List.headD_cons, List.drop_succ_cons, List.drop_zero, hjoin]
          cases htb : tbGet es n with
          | none =>
            simp only [htb, hrec none]
            simp only [insSpec, optEntries, htb]
          | some e =>
            simp only [htb, hrec (some (lookupObj (entOid e)))]
            simp only [insSpec, optEntries, htb]

theorem rm_aux_eq (ss : List String) : ∀ (tree : Option GitObj) (fuel : Nat),
    GoodSegs ss → ss ≠ [] → ss.length ≤ fuel →
    remove_file_from_tree_aux fuel tree (joinPath ss) = rmSpec tree ss := by
  induction ss with
  | nil => intro _ _ _ hne _; exact absurd rfl hne
  | cons n rest ih =>
    intro tree fuel hg hne hf
    have hf1 : 1 ≤ fuel := le_trans (by simp) hf
    obtain ⟨k, rfl⟩ : ∃ k, fuel = k + 1 := ⟨fuel - 1, by omega⟩
    have hsplit : full_split (joinPath (n :: rest)) = n :: rest :=
      full_split_joinPath _ hg (by simp)
    cases rest with
    | nil =>
      cases tree with
      | none => simp [remove_file_from_tree_aux, hsplit, rmSpec, optEntries]
      | some obj =>
        cases obj with
        | blob d => simp [remove_file_from_tree_aux, hsplit, rmSpec]
        | tree es => simp [remove_file_from_tree_aux, hsplit, rmSpec, optEntries]
    | cons r rs =>
      have hjoin : osJoin r rs = joinPath (r :: rs) :=
        osJoin_eq_joinPath r rs (fun x hx => hg x (by simp at hx ⊢; tauto))
      have hrec := fun sub_tree => ih sub_tree k
        (fun x hx => hg x (by simp at hx ⊢; tauto)) (by simp) (by simp at hf ⊢; omega)
      cases tree with
      | none =>
        simp only [remove_file_from_tree_aux, hsplit]
        rw [if_pos (by simp)]
        simp only [List.headD_cons, List.drop_succ_cons, List.drop_zero, hjoin]
        simp only [tbGet, hrec none]
        simp only [rmSpec, optEntries, tbGet]
      | some obj =>
        cases obj with
        | blob d => simp [remove_file_from_tree_aux, hsplit, rmSpec]
        | tree es =>
          simp only [remove_file_from_tree_aux, hsplit]
          rw [if_pos (by simp)]
          simp only [List.headD_cons, List.drop_succ_cons, List.drop_zero, hjoin]
          cases htb : tbGet es n with
          | none =>
            simp only [htb]
            simp only [rmSpec, optEntries, htb]
          | some e =>
            simp only [htb, hrec (some (lookupObj (entOid e)))]
            simp only [rmSpec, optEntries, htb]

theorem insert_into_tree_joinPath (tree : Option GitObj) (ss : List String)
    (oid : Oid) (attr : FileMode) (hg : GoodSegs ss) (hne : ss ≠ []) :
    insert_into_tree tree (joinPath ss) oid attr = insSpec tree ss oid attr :=
  ins_aux_eq ss tree _ oid attr hg hne (joinPath_length_fuel ss hg)

theorem remove_file_from_tree_joinPath (tree : Option GitObj) (ss : List String)
    (hg : GoodSegs ss) (hne : ss ≠ []) :
    remove_file_from_tree tree (joinPath ss) = rmSpec tree ss :=
  rm_aux_eq ss tree _ hg hne (joinPath_length_fuel ss hg)


theorem insSpec_fresh (ss : List String) : ∀ (c : Oid) (m : FileMode), ss ≠ [] →
    ∃ es2, insSpec none ss c m = .ok (.treeId es2) ∧
      gteSpec (.tree es2) ss = .ok (some (ss.getLastD "", c, leafMode ss m)) := by
  induction ss with
  | nil => intro _ _ hne; exact absurd rfl hne
  | cons n rest ih =>
    intro c m _
    cases rest with
    | nil =>
      refine ⟨tbInsert [] n c m, rfl, ?_⟩
      simp [gteSpec, tbInsert, tbGet, leafMode]
    | cons r rs =>
      obtain ⟨D, hD1, hD2⟩ := ih c .blob (by simp)
      refine ⟨tbInsert [] n (.treeId D) .tree, ?_, ?_⟩
      · simp only [insSpec, optEntries, tbGet, hD1]
      · have hget : tbGet (tbInsert [] n (.treeId D) .tree) n = some (n, .treeId D, .tree) :=
          tbGet_tbInsert_self [] n (.treeId D) .tree
        simp only [gteSpec, hget, entOid_mk, lookupObj, hD2, leafMode]
        simp [leafMode] at hD2 ⊢

theorem insSpec_resolve (ss : List String) : ∀ (es : List Entry) (c : Oid) (m : FileMode),
    ss ≠ [] →
    gteSpec (.tree es) ss = .ok none →
    ∃ es2, insSpec (some (.tree es)) ss c m = .ok (.treeId es2) ∧
      gteSpec (.tree es2) ss = .ok (some (ss.getLastD "", c, leafMode ss m)) := by
  induction ss with
  | nil => intro _ _ _ hne _; exact absurd rfl hne
  | cons n rest ih =>
    intro es c m _ habs
    cases rest with
    | nil =>
      have htb : tbGet es n = none := by
        simp only [gteSpec] at habs
        injection habs
      refine ⟨tbInsert es n c m, rfl, ?_⟩
      simp [gteSpec, tbGet_tbInsert_self, leafMode]
    | cons r rs =>
      cases htb : tbGet es n with
      | none =>
        obtain ⟨D, hD1, hD2⟩ := insSpec_fresh (r :: rs) c .blob (by simp)
        refine ⟨tbInsert es n (.treeId D) .tree, ?_, ?_⟩
        · simp only [insSpec, optEntries, htb, hD1]
        · have hget : tbGet (tbInsert es n (.treeId D) .tree) n =
              some (n, .treeId D, .tree) := tbGet_tbInsert_self es n (.treeId D) .tree
          simp only [gteSpec, hget, entOid_mk, lookupObj, hD2, leafMode]
          simp [leafMode] at hD2 ⊢
      | some e =>
        have hsub : gteSpec (lookupObj (entOid e)) (r :: rs) = .ok none := by
          simp only [gteSpec, htb] at habs
          exact habs
        cases hoid : entOid e with
        | blobId s =>
          rw [hoid] at hsub
          simp [lookupObj, gteSpec] at hsub
        | treeId es2 =>
          rw [hoid] at hsub
          simp only [lookupObj] at hsub
          obtain ⟨D, hD1, hD2⟩ := ih es2 c .blob (by simp) hsub
          refine ⟨tbInsert es n (.treeId D) .tree, ?_, ?_⟩
          · simp only [insSpec, optEntries, htb, hoid, lookupObj, hD1]
          · have hget : tbGet (tbInsert es n (.treeId D) .tree) n =
                some (n, .treeId D, .tree) := tbGet_tbInsert_self es n (.treeId D) .tree
            simp only [gteSpec, hget, entOid_mk, lookupObj, hD2, leafMode]
            simp [leafMode] at hD2 ⊢

theorem dGet_dUpsert_self {α : Type} (d : List (String × α)) (k : String) (v : α) :
    dGet (dUpsert d k v) k = some v := by
  induction d with
  | nil => simp [dUpsert, dGet]
  | cons p rest ih =>
    by_cases h : p.1 = k
    · simp [dUpsert, dGet, h]
    · simp only [dUpsert, dGet]
      rw [if_neg h, dGet, if_neg h]
      exact ih

theorem dGet_dUpsert_ne {α : Type} (d : List (String × α)) (k k2 : String) (v : α)
    (h : k2 ≠ k) : dGet (dUpsert d k v) k2 = dGet d k2 := by
  induction d with
  | nil =>
    simp only [dUpsert, dGet]
    rw [if_neg (fun hc => h hc.symm)]
  | cons p rest ih =>
    by_cases hp : p.1 = k
    · simp only [dUpsert, if_pos hp, dGet]
      rw [if_neg (fun hc => h hc.symm), if_neg (by rw [hp]; exact fun hc => h hc.symm)]
    · simp only [dUpsert, if_neg hp, dGet]
      by_cases hp2 : p.1 = k2
      · rw [if_pos hp2, if_pos hp2]
      · rw [if_neg hp2, if_neg hp2]
        exact ih

theorem get_tree_entry_aux_error (fuel : Nat) : ∀ (obj : GitObj) (s : String) (e : PyErr),
    get_tree_entry_aux fuel obj s = .error e → e = .typeError ∨ e = .fuelExhausted := by
  induction fuel with
  | zero =>
    intro obj s e h
    simp only [get_tree_entry_aux] at h
    injection h with h
    exact Or.inr h.symm
  | succ k ih =>
    intro obj s e h
    cases obj with
    | blob d =>
      simp only [get_tree_entry_aux] at h
      by_cases hlen : (full_split s).length = 1
      · rw [if_pos hlen] at h; injection h with h; exact Or.inl h.symm
      · rw [if_neg hlen] at h; injection h with h; exact Or.inl h.symm
    | tree es =>
      simp only [get_tree_entry_aux] at h
      by_cases hlen : (full_split s).length = 1
      · rw [if_pos hlen] at h; cases h
      · rw [if_neg hlen] at h
        cases htb : tbGet es ((full_split s).headD "") with
        | none => rw [htb] at h; cases h
        | some e2 =>
          rw [htb] at h
          exact ih _ _ _ h

theorem get_tree_entry_error (obj : GitObj) (s : String) (e : PyErr)
    (h : get_tree_entry obj s = .error e) : e = .typeError ∨ e = .fuelExhausted :=
  get_tree_entry_aux_error _ obj s e h

theorem simplify_scenario_eval :
    TreeModifier.simplify
        { tree := .treeId [("a", .treeId [("b", .treeId [("c.txt", .blobId "x", .blob)], .tree)], .tree)],
          operations := [.remove "a/b/c.txt"] } =
      .ok [("a", .sub [("b", .sub [("c.txt", .tomb)])])] := rfl

theorem tbGet_tbRemove_self (es : List Entry) (n : String) :
    tbGet (tbRemove es n) n = none := by
  induction es with
  | nil => rfl
  | cons e es ih =>
    by_cases h : entName e = n
    · rw [tbRemove_cons_eq es h]
      exact ih
    · rw [tbRemove_cons_ne es h, tbGet_cons_ne _ h]
      exact ih

theorem rmSpec_noEmpty (ss : List String) : ∀ (es : List Entry) (R : Oid),
    GoodSegs ss → ss ≠ [] →
    rmSpec (some (.tree es)) ss = .ok R → noEmptyOnPath R ss := by
  induction ss with
  | nil => intro _ _ _ hne _; exact absurd rfl hne
  | cons n rest ih =>
    intro es R hg _ h
    have hn : GoodSeg n := hg n (by simp)
    have hn2 : n ≠ "" := by
      intro hc
      rw [hc] at hn
      exact hn.1 rfl
    cases rest with
    | nil =>
      simp only [rmSpec, optEntries] at h
      injection h with h
      rw [← h]
      simp only [removeFinish]
      by_cases hp : (tbGet es n).isSome
      · rw [if_pos ⟨hn2, hp⟩]
        simp only [noEmptyOnPath, tbGet_tbRemove_self]
      · rw [if_neg (fun hc => hp hc.2)]
        have : tbGet es n = none := by
          cases hq : tbGet es n with
          | none => rfl
          | some e => rw [hq] at hp; exact absurd rfl hp
        simp only [noEmptyOnPath, this]
    | cons r rs =>
      simp only [rmSpec, optEntries] at h
      cases htb : tbGet es n with
      | none =>
        simp only [htb] at h
        injection h with h
        rw [← h]
        simp only [objId, noEmptyOnPath, htb]
      | some e =>
        simp only [htb] at h
        cases hoid : entOid e with
        | blobId s =>
          rw [hoid] at h
          simp only [lookupObj, rmSpec] at h
          cases h
        | treeId es2 =>
          rw [hoid] at h
          simp only [lookupObj] at h
          cases hrec : rmSpec (some (.tree es2)) (r :: rs) with
          | error err => simp only [hrec] at h; cases h
          | ok subId =>
            simp only [hrec] at h
            have hsub : noEmptyOnPath subId (r :: rs) :=
              ih es2 subId (fun x hx => hg x (by simp at hx ⊢; tauto)) (by simp) hrec
            by_cases hemp : subId = empty_tree_id
            · rw [if_pos hemp] at h
              injection h with h
              rw [← h]
              simp only [removeFinish]
              rw [if_pos ⟨hn2, by rw [htb]; rfl⟩]
              simp only [noEmptyOnPath, tbGet_tbRemove_self]
            · rw [if_neg hemp] at h
              injection h with h
              rw [← h]
              simp only [removeFinish]
              simp only [noEmptyOnPath, tbGet_tbInsert_self, entMode_mk, entOid_mk]
              exact ⟨fun _ => hemp, hsub⟩

theorem insSpec_none_chain (ss : List String) : ∀ (c : Oid) (m : FileMode), ss ≠ [] →
    insSpec none ss c m = .ok (.treeId (chainOf ss c m)) := by
  induction ss with
  | nil => intro _ _ hne; exact absurd rfl hne
  | cons n rest ih =>
    intro c m _
    cases rest with
    | nil => rfl
    | cons r rs =>
      simp only [insSpec, optEntries, tbGet, ih c .blob (by simp), chainOf]
      simp [tbInsert]

theorem rmSpec_chain (ss : List String) : ∀ (c : Oid) (m : FileMode),
    GoodSegs ss → ss ≠ [] →
    rmSpec (some (.tree (chainOf ss c m))) ss = .ok empty_tree_id := by
  induction ss with
  | nil => intro _ _ _ hne; exact absurd rfl hne
  | cons n rest ih =>
    intro c m hg _
    have hn : GoodSeg n := hg n (by simp)
    have hn2 : n ≠ "" := by
      intro hc; rw [hc] at hn; exact hn.1 rfl
    cases rest with
    | nil =>
      simp only [rmSpec, chainOf, optEntries, removeFinish]
      rw [if_pos ⟨hn2, by simp [tbGet]⟩]
      simp [tbRemove, entName, empty_tree_id]
    | cons r rs =>
      have hrec := ih c .blob (fun x hx => hg x (by simp at hx ⊢; tauto)) (by simp)
      simp only [rmSpec, chainOf, optEntries]
      rw [show tbGet [(n, Oid.treeId (chainOf (r :: rs) c .blob), FileMode.tree)] n =
            some (n, Oid.treeId (chainOf (r :: rs) c .blob), FileMode.tree) from by
        simp [tbGet, entName]]
      simp only [entOid_mk, lookupObj, hrec]
      rw [if_pos trivial]
      simp only [removeFinish]
      rw [if_pos ⟨hn2, by simp [tbGet, entName]⟩]
      simp [tbRemove, entName, empty_tree_id]

theorem insSpec_ok_shape (t : Option GitObj) (ss : List String) (c : Oid) (m : FileMode)
    (o : Oid) (h : insSpec t ss c m = .ok o) : ∃ es3, o = .treeId es3 := by
  cases t with
  | none =>
    cases ss with
    | nil =>
      simp only [insSpec] at h
      exact ⟨_, by injection h with h; rw [← h]⟩
    | cons n rest =>
      cases rest with
      | nil =>
        simp only [insSpec] at h
        exact ⟨_, by injection h with h; rw [← h]⟩
      | cons r rs =>
        simp only [insSpec] at h
        split at h
        · cases h
        · injection h with h
          exact ⟨_, h.symm⟩
  | some obj =>
    cases obj with
    | blob d =>
      simp only [insSpec] at h
      cases h
    | tree es =>
      cases ss with
      | nil =>
        simp only [insSpec] at h
        exact ⟨_, by injection h with h; rw [← h]⟩
      | cons n rest =>
        cases rest with
        | nil =>
          simp only [insSpec] at h
          exact ⟨_, by injection h with h; rw [← h]⟩
        | cons r rs =>
          simp only [insSpec] at h
          split at h
          · cases h
          · injection h with h
            exact ⟨_, h.symm⟩

theorem rmSpec_insSpec (ss : List String) : ∀ (es : List Entry) (c : Oid) (m : FileMode)
    (es2 : List Entry),
    GoodSegs ss → ss ≠ [] →
    Oid.WF (.treeId es) →
    gteSpec (.tree es) ss = .ok none →
    noEmptyAncestors es ss →
    insSpec (some (.tree es)) ss c m = .ok (.treeId es2) →
    rmSpec (some (.tree es2)) ss = .ok (.treeId es) := by
  induction ss with
  | nil => intro _ _ _ _ _ hne _ _ _ _; exact absurd rfl hne
  | cons n rest ih =>
    intro es c m es2 hg _ hwf habs hanc hins
    have hn : GoodSeg n := hg n (by simp)
    have hn2 : n ≠ "" := fun hc => by rw [hc] at hn; exact hn.1 rfl
    cases rest with
    | nil =>
      have htb : tbGet es n = none := by
        simp only [gteSpec] at habs
        injection habs
      have hes2 : es2 = tbInsert es n c m := by
        simp only [insSpec, optEntries] at hins
        injection hins with h
        injection h with h
        exact h.symm
      rw [hes2]
      simp only [rmSpec, optEntries, removeFinish]
      rw [if_pos ⟨hn2, by rw [tbGet_tbInsert_self]; rfl⟩]
      rw [tbRemove_tbInsert es n c m ((tbGet_none_iff es n).mp htb)]
    | cons r rs =>
      have hgr : GoodSegs (r :: rs) := fun x hx => hg x (by simp at hx ⊢; tauto)
      cases htb : tbGet es n with
      | none =>
        have habsent : ∀ e2 ∈ es, entName e2 ≠ n := (tbGet_none_iff es n).mp htb
        simp only [insSpec, optEntries, htb,
          insSpec_none_chain (r :: rs) c .blob (by simp)] at hins
        injection hins with h
        injection h with h
        rw [← h]
        simp only [rmSpec, optEntries, tbGet_tbInsert_self, entOid_mk, lookupObj,
          rmSpec_chain (r :: rs) c .blob hgr (by simp)]
        rw [if_pos trivial]
        simp only [removeFinish]
        rw [if_pos ⟨hn2, by rw [tbGet_tbInsert_self]; rfl⟩]
        rw [tbRemove_tbInsert es n _ _ habsent]
      | some e =>
        obtain ⟨hmem, hname⟩ := tbGet_mem es n e htb
        cases hwf with
        | tree _ hsort hmode hrecw =>
        cases hoid : entOid e with
        | blobId s =>
          simp only [gteSpec, htb, hoid, lookupObj] at habs
          cases habs
        | treeId es3 =>
          have hmode_e : entMode e = .tree := by
            have h2 := hmode e hmem
            simp only [modeOk, hoid] at h2
            exact h2
          have hsub_abs : gteSpec (.tree es3) (r :: rs) = .ok none := by
            simp only [gteSpec, htb, hoid, lookupObj] at habs
            exact habs
          have hanc2 : Oid.treeId es3 ≠ empty_tree_id ∧ noEmptyAncestors es3 (r :: rs) := by
            simp only [noEmptyAncestors, htb, hoid] at hanc
            exact hanc
          have hwf3 : Oid.WF (.treeId es3) := by
            have h2 := hrecw e hmem
            rw [hoid] at h2
            exact h2
          simp only [insSpec, optEntries, htb, hoid, lookupObj] at hins
          cases hi : insSpec (some (.tree es3)) (r :: rs) c .blob with
          | error err => simp only [hi] at hins; cases hins
          | ok oid2 =>
            obtain ⟨D, rfl⟩ := insSpec_ok_shape _ _ _ _ _ hi
            simp only [hi] at hins
            injection hins with h
            injection h with h
            have hrm := ih es3 c .blob D hgr (by simp) hwf3 hsub_abs hanc2.2 hi
            rw [← h]
            simp only [rmSpec, optEntries, tbGet_tbInsert_self, entOid_mk, lookupObj, hrm]
            rw [if_neg hanc2.1]
            simp only [removeFinish]
            rw [tbInsert_tbInsert_same]
            have he_eq : e = (n, Oid.treeId es3, FileMode.tree) := by
              have h3 : (entName e, entOid e, entMode e) = e := rfl
              rw [← h3, hname, hoid, hmode_e]
            rw [tbInsert_mem_sorted es n (.treeId es3) .tree hsort (he_eq ▸ hmem)]

theorem wf_demo : Oid.WF (.treeId [("a", Oid.treeId [], FileMode.tree)]) := by
  refine Oid.WF.tree _ (by simp) ?_ ?_
  · intro e he
    simp at he
    rw [he]
    simp [modeOk]
  · intro e he
    simp at he
    rw [he]
    exact Oid.WF.tree [] (by simp) (by intro e2 he2; cases he2) (by intro e2 he2; cases he2)

theorem C1_counterexample :
    TreeModifier.apply
        { tree := .treeId [("a", .treeId [("b", .treeId [("c.txt", .blobId "x", .blob)], .tree)], .tree)],
          operations := [.remove "a/b/c.txt"] } =
      .ok (.treeId [("a", .treeId [("b", .treeId [], .tree)], .tree)]) ∧
    Oid.treeId [("a", .treeId [("b", .treeId [], .tree)], .tree)] ≠ empty_tree_id := by
  constructor
  · simp only [TreeModifier.apply, simplify_scenario_eval]
    simp [update_tree, update_entries, subObjOf, tbGet, tbInsert, tbRemove, entName, entOid,
          lookupObj, empty_tree_id, nameLt_irrefl]
  · decide

/-- C1: in update_tree a rebuilt sub-directory is always re-inserted as a tree entry, even when its identity is the empty-tree identity; the scenario tree holding only a/b/c.txt therefore ends as nested directories around an empty tree, not as the empty tree. -/

theorem C1_theorem :
    (∀ (tb : List Entry) (key : String) (d : TodoDict),
      update_tree (subObjOf tb key) d = .ok empty_tree_id →
      update_entries tb [(key, TodoVal.sub d)] =
        .ok (tbInsert tb key empty_tree_id .tree) ∧
      tbGet (tbInsert tb key empty_tree_id .tree) key =
        some (key, empty_tree_id, .tree)) ∧
    TreeModifier.apply
        { tree := .treeId [("a", .treeId [("b", .treeId [("c.txt", .blobId "x", .blob)], .tree)], .tree)],
          operations := [.remove "a/b/c.txt"] } =
      .ok (.treeId [("a", .treeId [("b", .treeId [], .tree)], .tree)]) := by
  constructor
  · intro tb key d h
    refine ⟨?_, tbGet_tbInsert_self tb key empty_tree_id .tree⟩
    simp only [update_entries]
    rw [h]
  · simp only [TreeModifier.apply, simplify_scenario_eval]
    simp [update_tree, update_entries, subObjOf, tbGet, tbInsert, tbRemove, entName, entOid,
          lookupObj, empty_tree_id, nameLt_irrefl]

theorem C1_theorem_witness :
    update_entries [("b", Oid.treeId [("c.txt", Oid.blobId "x", FileMode.blob)], FileMode.tree)]
        [("b", TodoVal.sub [("c.txt", TodoVal.tomb)])] =
      .ok (tbInsert [("b", Oid.treeId [("c.txt", Oid.blobId "x", FileMode.blob)], FileMode.tree)]
        "b" empty_tree_id .tree) ∧
    tbGet (tbInsert [("b", Oid.treeId [("c.txt", Oid.blobId "x", FileMode.blob)], FileMode.tree)]
        "b" empty_tree_id .tree) "b" = some ("b", empty_tree_id, .tree) :=
  C1_theorem.1 _ "b" [("c.txt", TodoVal.tomb)]
    (by simp [update_tree, update_entries, subObjOf, tbGet, tbRemove, entName, entOid, lookupObj,
              empty_tree_id, nameLt_irrefl])

theorem C2_counterexample :
    get_tree_entry (GitObj.tree []) "a/b" = .ok none ∧
    insert_into_tree (some (.tree [])) "a/b" (.blobId "c") .tree =
      .ok (.treeId [("a", .treeId [("b", .blobId "c", .blob)], .tree)]) ∧
    get_tree_entry
        (lookupObj (.treeId [("a", .treeId [("b", .blobId "c", .blob)], .tree)])) "a/b" =
      .ok (some ("b", .blobId "c", .blob)) ∧
    FileMode.blob ≠ FileMode.tree := by
  refine ⟨by decide, by decide, by decide, by decide⟩

/-- C2: resolving an absent path after insert yields the inserted content identity, but the stored mode is the requested one only for single-segment paths: a multi-segment insert always stores the blob mode at the leaf, dropping the requested mode. -/

theorem C2_theorem (es : List Entry) (ss : List String) (c : Oid) (m : FileMode)
    (hg : GoodSegs ss) (hne : ss ≠ [])
    (habs : get_tree_entry (.tree es) (joinPath ss) = .ok none) :
    Except.bind (insert_into_tree (some (.tree es)) (joinPath ss) c m)
        (fun R => get_tree_entry (lookupObj R) (joinPath ss)) =
      .ok (some (ss.getLastD "", c, leafMode ss m)) := by
  rw [get_tree_entry_joinPath _ _ hg hne] at habs
  obtain ⟨es2, h1, h2⟩ := insSpec_resolve ss es c m hne habs
  rw [insert_into_tree_joinPath _ _ _ _ hg hne, h1]
  show get_tree_entry (lookupObj (.treeId es2)) (joinPath ss) = _
  rw [show lookupObj (.treeId es2) = .tree es2 from rfl,
      get_tree_entry_joinPath _ _ hg hne, h2]

theorem C2_theorem_witness :
    Except.bind (insert_into_tree (some (.tree ([] : List Entry)))
        (joinPath ["a", "b"]) (.blobId "x") .tree)
        (fun R => get_tree_entry (lookupObj R) (joinPath ["a", "b"])) =
      .ok (some ("b", .blobId "x", leafMode ["a", "b"] FileMode.tree)) := by
  have h := C2_theorem [] ["a", "b"] (.blobId "x") .tree (by decide) (by decide) (by decide)
  simpa using h

theorem C3_counterexample :
    simplifyFlat (.tree [("x", .blobId "c", .blob)]) [.move "x" "y"] [] =
      .ok [("x", SimpVal.tomb), ("y", SimpVal.ent ("x", .blobId "c", .blob))] ∧
    SimpVal.ent ("x", .blobId "c", .blob) ≠ SimpVal.oid (.blobId "c") := by
  constructor
  · decide
  · decide

/-- C3: replaying Move(old, new) follows the claimed error discipline, but a move resolved from the base tree stores the whole tree entry rather than its content identity; afterwards the outcome for new is the relocated value and the outcome for old is a tombstone whenever old and new differ. -/

theorem C3_theorem (base : GitObj) (todo : List (String × SimpVal)) (old_fn new_fn : String) :
    (simplifyStep base todo (.move old_fn new_fn) = .error .moveOfDeletedPath ↔
      dGet todo old_fn = some .tomb) ∧
    (simplifyStep base todo (.move old_fn new_fn) = .error .moveOfMissingPath ↔
      dGet todo old_fn = none ∧ get_tree_entry base old_fn = .ok none) ∧
    (∀ v, dGet todo old_fn = some v → v ≠ .tomb →
      simplifyStep base todo (.move old_fn new_fn) =
        .ok (dUpsert (dUpsert todo old_fn .tomb) new_fn v)) ∧
    (∀ e, dGet todo old_fn = none → get_tree_entry base old_fn = .ok (some e) →
      simplifyStep base todo (.move old_fn new_fn) =
        .ok (dUpsert (dUpsert todo old_fn .tomb) new_fn (.ent e))) ∧
    (∀ res, old_fn ≠ new_fn →
      simplifyStep base todo (.move old_fn new_fn) = .ok res →
      dGet res old_fn = some .tomb) ∧
    (∀ res v, dGet todo old_fn = some v →
      simplifyStep base todo (.move old_fn new_fn) = .ok res →
      dGet res new_fn = some v) ∧
    (∀ res e, dGet todo old_fn = none → get_tree_entry base old_fn = .ok (some e) →
      simplifyStep base todo (.move old_fn new_fn) = .ok res →
      dGet res new_fn = some (.ent e)) := by
  refine ⟨?_, ?_, ?_, ?_, ?_, ?_, ?_⟩
  · constructor
    · intro h
      cases hd : dGet todo old_fn with
      | none =>
        simp only [simplifyStep, hd] at h
        cases hge : get_tree_entry base old_fn with
        | error e2 =>
          rw [hge] at h
          injection h with h2
          rcases get_tree_entry_error base old_fn e2 hge with h3 | h3 <;> rw [h3] at h2 <;> cases h2
        | ok oe =>
          cases oe with
          | none => rw [hge] at h; injection h with h2; cases h2
          | some e2 => rw [hge] at h; cases h
      | some v =>
        cases v with
        | tomb => rfl
        | oid o => simp only [simplifyStep, hd] at h; cases h
        | ent e2 => simp only [simplifyStep, hd] at h; cases h
    · intro h
      simp [simplifyStep, h]
  · constructor
    · intro h
      cases hd : dGet todo old_fn with
      | some v =>
        cases v with
        | tomb => simp only [simplifyStep, hd] at h; injection h with h2; cases h2
        | oid o => simp only [simplifyStep, hd] at h; cases h
        | ent e2 => simp only [simplifyStep, hd] at h; cases h
      | none =>
        refine ⟨rfl, ?_⟩
        simp only [simplifyStep, hd] at h
        cases hge : get_tree_entry base old_fn with
        | error e2 =>
          rw [hge] at h
          injection h with h2
          rcases get_tree_entry_error base old_fn e2 hge with h3 | h3 <;> rw [h3] at h2 <;> cases h2
        | ok oe =>
          cases oe with
          | none => rfl
          | some e2 => rw [hge] at h; cases h
    · rintro ⟨h1, h2⟩
      simp [simplifyStep, h1, h2]
  · intro v hv hvt
    cases v with
    | tomb => exact absurd rfl hvt
    | oid o => simp [simplifyStep, hv]
    | ent e2 => simp [simplifyStep, hv]
  · intro e h1 h2
    simp [simplifyStep, h1, h2]
  · intro res hne h
    cases hd : dGet todo old_fn with
    | some v =>
      cases v with
      | tomb => simp only [simplifyStep, hd] at h; cases h
      | oid o =>
        simp only [simplifyStep, hd] at h
        injection h with h2
        rw [← h2, dGet_dUpsert_ne _ _ _ _ hne, dGet_dUpsert_self]
      | ent e2 =>
        simp only [simplifyStep, hd] at h
        injection h with h2
        rw [← h2, dGet_dUpsert_ne _ _ _ _ hne, dGet_dUpsert_self]
    | none =>
      simp only [simplifyStep, hd] at h
      cases hge : get_tree_entry base old_fn with
      | error e2 => rw [hge] at h; cases h
      | ok oe =>
        cases oe with
        | none => rw [hge] at h; cases h
        | some e2 =>
          rw [hge] at h
          injection h with h2
          rw [← h2, dGet_dUpsert_ne _ _ _ _ hne, dGet_dUpsert_self]
  · intro res v hd h
    cases v with
    | tomb => simp only [simplifyStep, hd] at h; cases h
    | oid o =>
      simp only [simplifyStep, hd] at h
      injection h with h2
      rw [← h2, dGet_dUpsert_self]
    | ent e2 =>
      simp only [simplifyStep, hd] at h
      injection h with h2
      rw [← h2, dGet_dUpsert_self]
  · intro res e hd hge h
    simp only [simplifyStep, hd, hge] at h
    injection h with h2
    rw [← h2, dGet_dUpsert_self]

theorem C3_theorem_witness :
    simplifyStep (.tree [("x", Oid.blobId "c", FileMode.blob)]) [] (.move "x" "y") =
      .ok (dUpsert (dUpsert [] "x" SimpVal.tomb) "y"
        (SimpVal.ent ("x", Oid.blobId "c", FileMode.blob))) :=
  (C3_theorem (.tree [("x", Oid.blobId "c", FileMode.blob)]) [] "x" "y").2.2.2.1
    ("x", Oid.blobId "c", FileMode.blob) (by decide) (by decide)

/-- C4: remove never leaves a tree entry carrying the empty-tree identity along the removed path: deleting the last entry of a directory collapses the directory away in its parent. -/

theorem C4_theorem (es : List Entry) (ss : List String) (R : Oid)
    (hg : GoodSegs ss) (hne : ss ≠ [])
    (h : remove_file_from_tree (some (.tree es)) (joinPath ss) = .ok R) :
    noEmptyOnPath R ss := by
  rw [remove_file_from_tree_joinPath _ _ hg hne] at h
  exact rmSpec_noEmpty ss es R hg hne h

theorem C4_theorem_witness :
    noEmptyOnPath (.treeId []) ["a", "b"] :=
  C4_theorem [("a", .treeId [("b", .blobId "x", .blob)], .tree)] ["a", "b"] (.treeId [])
    (by decide) (by decide) (by decide)

theorem C5_counterexample :
    Oid.WF (.treeId [("a", Oid.treeId [], FileMode.tree)]) ∧
    get_tree_entry (.tree [("a", Oid.treeId [], FileMode.tree)]) "a/b" = .ok none ∧
    thenTree (insert_into_tree (some (.tree [("a", Oid.treeId [], FileMode.tree)]))
        "a/b" (.blobId "c") .blob)
      (fun R => remove_file_from_tree (some (lookupObj R)) "a/b") = .ok (.treeId []) ∧
    Oid.treeId [] ≠ Oid.treeId [("a", Oid.treeId [], FileMode.tree)] := by
  refine ⟨wf_demo, by decide, by decide, by decide⟩

/-- C5: for a canonical tree with no empty-tree entry along the path and a path absent from the tree, remove after insert returns the original tree identity; without the no-empty-ancestor premise the round trip can instead prune a pre-existing empty directory, as the counterexample shows. -/

theorem C5_theorem (es : List Entry) (ss : List String) (c : Oid) (m : FileMode)
    (hg : GoodSegs ss) (hne : ss ≠ []) (hwf : Oid.WF (.treeId es))
    (habs : get_tree_entry (.tree es) (joinPath ss) = .ok none)
    (hanc : noEmptyAncestors es ss) :
    thenTree (insert_into_tree (some (.tree es)) (joinPath ss) c m)
      (fun R => remove_file_from_tree (some (lookupObj R)) (joinPath ss)) =
      .ok (.treeId es) := by
  rw [get_tree_entry_joinPath _ _ hg hne] at habs
  obtain ⟨es2, h1, _⟩ := insSpec_resolve ss es c m hne habs
  rw [insert_into_tree_joinPath _ _ _ _ hg hne, h1]
  show remove_file_from_tree (some (lookupObj (.treeId es2))) (joinPath ss) = .ok (.treeId es)
  rw [show lookupObj (.treeId es2) = .tree es2 from rfl,
      remove_file_from_tree_joinPath _ _ hg hne]
  exact rmSpec_insSpec ss es c m es2 hg hne hwf habs hanc h1

theorem C5_theorem_witness :
    thenTree (insert_into_tree (some (.tree [("d", Oid.blobId "z", FileMode.blob)]))
        (joinPath ["a", "b"]) (.blobId "x") .blob)
      (fun R => remove_file_from_tree (some (lookupObj R)) (joinPath ["a", "b"])) =
      .ok (.treeId [("d", Oid.blobId "z", FileMode.blob)]) :=
  C5_theorem [("d", Oid.blobId "z", FileMode.blob)] ["a", "b"] (.blobId "x") .blob
    (by decide) (by decide)
    (Oid.WF.tree _ (by simp)
      (by intro e he; simp at he; rw [he]; simp [modeOk])
      (by intro e he; simp at he; rw [he]; exact Oid.WF.blob "z"))
    (by decide)
    (by simp [noEmptyAncestors, tbGet, entName])

/-- C6: publish raises ConcurrentModification exactly when the head tree identity differs from the recorded base tree identity (whenever the head tree is readable), and a ConcurrentModification abort leaves the whole session state unchanged. -/

theorem C6_theorem (g : GitHandler) :
    (∀ lastTree, get_last_tree g = .ok lastTree →
      ((g.commit.1 = some .concurrentModification) ↔ g.tree_modifier.tree ≠ lastTree)) ∧
    (g.commit.1 = some .concurrentModification → g.commit.2 = g) := by
  constructor
  · intro lastTree hlast
    constructor
    · intro hcm
      by_cases hne : g.tree_modifier.tree ≠ lastTree
      · exact hne
      · exfalso
        simp only [GitHandler.commit, hlast] at hcm
        rw [if_neg hne] at hcm
        cases happ : g.tree_modifier.apply with
        | error e => simp [happ] at hcm
        | ok newTree =>
          simp only [happ] at hcm
          cases hhead : g.repo.head with
          | none => simp [hhead, createCommitStep] at hcm
          | some h =>
            simp only [hhead] at hcm
            cases hget : g.repo.commits[h]? with
            | none => simp [hget] at hcm
            | some cm =>
              simp only [List.get?_eq_getElem?, hget] at hcm
              by_cases heq2 : cm.tree = newTree
              · simp [heq2] at hcm
              · simp [heq2, createCommitStep] at hcm
    · intro hne
      simp only [GitHandler.commit, hlast]
      rw [if_pos hne]
  · intro hcm
    simp only [GitHandler.commit] at hcm ⊢
    cases hlast : get_last_tree g with
    | error e => simp [hlast]
    | ok lastTree =>
      simp only [hlast] at hcm ⊢
      by_cases hne : g.tree_modifier.tree ≠ lastTree
      · rw [if_pos hne]
      · rw [if_neg hne] at hcm ⊢
        cases happ : g.tree_modifier.apply with
        | error e => simp [happ]
        | ok newTree =>
          simp only [happ] at hcm
          cases hhead : g.repo.head with
          | none => simp [hhead, createCommitStep] at hcm
          | some h =>
            simp only [hhead] at hcm
            cases hget : g.repo.commits[h]? with
            | none => simp [hget] at hcm
            | some cm =>
              simp only [List.get?_eq_getElem?, hget] at hcm
              by_cases heq2 : cm.tree = newTree
              · simp [heq2] at hcm
              · simp [heq2, createCommitStep] at hcm

theorem C6_theorem_witness :
    c6sess.commit.1 = some CommitError.concurrentModification ∧
    c6sess.commit.2 = c6sess := by
  have h := C6_theorem c6sess
  have hcm := (h.1 c6tree (by rfl)).2 (by decide)
  exact ⟨hcm, h.2 hcm⟩

/-- C7: after a successful publish, publishing again with an empty operation log raises nothing, creates no commit, leaves the head and the reference untouched, and the pending operation log stays empty. -/

theorem C7_theorem (g : GitHandler) (h : Nat) (cm : CommitObj) (es : List Entry)
    (hhead : g.repo.head = some h)
    (hcommit : g.repo.commits[h]? = some cm)
    (htree : cm.tree = g.tree_modifier.tree)
    (hbase : g.tree_modifier.tree = .treeId es)
    (hops : g.tree_modifier.operations = []) :
    g.commit.1 = none ∧ g.commit.2.repo = g.repo ∧
    g.commit.2.tree_modifier.operations = [] := by
  have hlast : get_last_tree g = .ok cm.tree := by
    simp [get_last_tree, hhead, List.get?_eq_getElem?, hcommit]
  have happly : g.tree_modifier.apply = .ok (Oid.treeId es) := by
    simp [TreeModifier.apply, TreeModifier.simplify, hops, hbase, simplifyFlat, regroup,
      update_tree, update_entries, lookupObj]
  have hcm2 : cm.tree = Oid.treeId es := htree.trans hbase
  simp only [GitHandler.commit, hlast]
  rw [if_neg (by simp [htree.symm])]
  simp only [happly, hhead, List.get?_eq_getElem?, hcommit]
  rw [if_pos hcm2]
  exact ⟨rfl, rfl, rfl⟩

theorem C7_theorem_witness :
    c7sess.commit.1 = none ∧ c7sess.commit.2.repo = c7sess.repo ∧
    c7sess.commit.2.tree_modifier.operations = [] :=
  C7_theorem c7sess 0 { tree := .treeId [("f", .blobId "hello", .blob)],
                        parents := [], message := "" }
    [("f", .blobId "hello", .blob)] rfl rfl rfl rfl rfl

theorem C8_counterexample :
    tbGet [("a", Oid.blobId "x", FileMode.blob)] "a" =
      some ("a", Oid.blobId "x", FileMode.blob) ∧
    get_tree_entry (.tree [("a", .blobId "x", .blob)]) "a/y" = .error .typeError := by
  constructor
  · decide
  · decide

/-- C8: a multi-segment lookup returns no entry when the first segment is absent; when it is present the lookup always recurses into the fetched object, and when that object is a blob the recursion raises a TypeError instead of returning not-found. -/

theorem C8_theorem (es : List Entry) (d : String) (rest : List String)
    (hg : GoodSegs (d :: rest)) (hne : rest ≠ []) :
    (tbGet es d = none →
      get_tree_entry (.tree es) (joinPath (d :: rest)) = .ok none) ∧
    (∀ e, tbGet es d = some e →
      get_tree_entry (.tree es) (joinPath (d :: rest)) =
        get_tree_entry (lookupObj (entOid e)) (joinPath rest)) ∧
    (∀ e s, tbGet es d = some e → entOid e = .blobId s →
      get_tree_entry (.tree es) (joinPath (d :: rest)) = .error .typeError) := by
  obtain ⟨r, rs, rfl⟩ : ∃ r rs, rest = r :: rs := by
    cases rest with
    | nil => exact absurd rfl hne
    | cons r rs => exact ⟨r, rs, rfl⟩
  have hgr : GoodSegs (r :: rs) := fun x hx => hg x (by simp at hx ⊢; tauto)
  refine ⟨?_, ?_, ?_⟩
  · intro h
    rw [get_tree_entry_joinPath _ _ hg (by simp)]
    simp [gteSpec, h]
  · intro e he
    rw [get_tree_entry_joinPath _ _ hg (by simp),
        get_tree_entry_joinPath _ _ hgr (by simp)]
    simp [gteSpec, he]
  · intro e s he hs
    rw [get_tree_entry_joinPath _ _ hg (by simp)]
    simp [gteSpec, he, hs, lookupObj]

theorem C8_theorem_witness :
    get_tree_entry (.tree [("a", Oid.blobId "x", FileMode.blob)])
      (joinPath ["a", "y"]) = .error .typeError :=
  (C8_theorem [("a", Oid.blobId "x", FileMode.blob)] "a" ["y"]
    (by decide) (by decide)).2.2 ("a", Oid.blobId "x", FileMode.blob) "x" (by decide) rfl

theorem C9_counterexample : full_split "" = [""] ∧ ¬ GoodSeg "" := by
  constructor
  · decide
  · decide

/-- C9: full_split never returns an empty list and round-trips slash-joined good segments, but the empty path does not fail: it yields the singleton list holding the empty string, which is not a valid segment. -/

theorem C9_theorem :
    (∀ p : String, full_split p ≠ []) ∧
    full_split "" = [""] ∧
    (∀ ss : List String, GoodSegs ss → ss ≠ [] → full_split (joinPath ss) = ss) :=
  ⟨full_split_ne_nil, by decide, fun ss hg hne => full_split_joinPath ss hg hne⟩

theorem C9_theorem_witness :
    full_split "a/b" ≠ [] ∧ full_split (joinPath ["a", "b"]) = ["a", "b"] :=
  ⟨C9_theorem.1 "a/b", C9_theorem.2.2 ["a", "b"] (by decide) (by decide)⟩

/-- C10: a write whose content hash equals the identity of the existing entry for that filename returns the session unchanged: no blob recorded, no operation staged, no message line appended, no working-copy write. -/

theorem C10_theorem (g : GitHandler) (filename content : String) (e : Entry)
    (hres : get_tree_entry (lookupObj g.working_tree) filename = .ok (some e))
    (hid : entOid e = git_hash content) :
    g.write_file filename content = .ok g := by
  simp only [GitHandler.write_file, hres]
  rw [if_pos hid]

theorem C10_theorem_witness :
    c10sess.write_file "f" "hello" = .ok c10sess :=
  C10_theorem c10sess "f" "hello" ("f", .blobId "hello", .blob) (by decide) (by decide)
